import Mathlib

/-
Verification development for the Playwright test impact analyzer
(src/dist/analyzer.js).  The analyzer's pure core is shallowly embedded
below: extraction of test/suite declarations from file text, brace-depth
body capture, diffing of two extractions, test-file classification,
module-specifier resolution, indirect impact propagation, diff-output
parsing, and the top-level analysis with its summary counters.  The
version-control collaborator (git) is modelled by a `GitEnv` record that
holds the diff output and the file trees at the two revisions.
-/

/-- Kind of an extracted declaration: a leaf test or a describe block.
In the source the `kind` field holds the strings given to the pattern
tables in `extractTestsFromContent`. -/
inductive TKind where
  | test
  | describe
deriving DecidableEq, Repr

/-- One extracted test/suite declaration, as built in
`extractTestsFromContent`: name, 1-based line number, captured body text
and kind. -/
structure TestDecl where
  testName : String
  lineNumber : Nat
  content : String
  kind : TKind
deriving DecidableEq, Repr

/-- Change type of a test-level record (the `type` field of the objects
pushed in `analyzeTestFileChanges` and `analyzeIndirectImpact`). -/
inductive TestChangeType where
  | added
  | removed
  | modified
deriving DecidableEq, Repr

/-- Impact origin of a record (`impactType` in the source). -/
inductive ImpactType where
  | direct
  | indirect
deriving DecidableEq, Repr

/-- One test-change record as pushed by the analyzer.  `impactedBy` is
only set by the indirect pass. -/
structure TestChange where
  type : TestChangeType
  testName : String
  filePath : String
  lineNumber : Nat
  changeKind : TKind
  impactType : ImpactType
  impactedBy : Option String
deriving DecidableEq, Repr

/-- Open brace character, written by code point to keep literals out of
string/char syntax. -/
def openBrace : Char := Char.ofNat 123

/-- Close brace character. -/
def closeBrace : Char := Char.ofNat 125

/-- JavaScript whitespace as used by the regex class in the patterns
(space, tab, CR, LF, vertical tab, form feed, NBSP cover every character
that can occur in the per-line inputs here). -/
def isJsWs (c : Char) : Bool :=
  c = ' ' || c = '\t' || c.toNat = 13 || c.toNat = 10 || c.toNat = 11 || c.toNat = 12 || c.toNat = 160

/-- Quote characters accepted by the declaration patterns: apostrophe,
double quote and backtick (code points 39, 34, 96). -/
def isQuote (c : Char) : Bool :=
  c.toNat = 39 || c.toNat = 34 || c.toNat = 96

/-- Quote characters accepted by the module-reference patterns:
apostrophe and double quote only. -/
def isQuoteES6 (c : Char) : Bool :=
  c.toNat = 39 || c.toNat = 34

/-- Word characters of the regex class `\\w`. -/
def isWordChar (c : Char) : Bool :=
  c.isAlphanum || c = '_'

/-- JS `String.prototype.split` with a one-character separator (the
source only splits on a newline, a tab, or a slash).  Splitting the
empty string yields one empty field, as in JS. -/
def splitOnCharAux (sep : Char) : List Char → List Char → List String
  | acc, [] => [String.mk acc.reverse]
  | acc, d :: rest =>
    if d = sep then String.mk acc.reverse :: splitOnCharAux sep [] rest
    else splitOnCharAux sep (d :: acc) rest

/-- Split a string at every occurrence of one character. -/
def splitOnChar (sep : Char) (s : String) : List String :=
  splitOnCharAux sep [] s.data

/-- JS `String.prototype.trim` over the whitespace characters that can
occur in the modelled inputs. -/
def strTrim (s : String) : String :=
  String.mk (((s.data.dropWhile Char.isWhitespace).reverse.dropWhile
    Char.isWhitespace).reverse)

/-- `startsWith` with a one-character head (the source only probes the
first character of a specifier or path). -/
def startsWithChar (s : String) (c : Char) : Bool :=
  decide (s.data.head? = some c)

/-- `endsWith` with a one-character tail. -/
def endsWithChar (s : String) (c : Char) : Bool :=
  decide (s.data.getLast? = some c)

/-- Consume an exact literal at the head of the character stream. -/
def dropLiteral : List Char → List Char → Option (List Char)
  | [], cs => some cs
  | _ :: _, [] => none
  | p :: ps, c :: cs => if c = p then dropLiteral ps cs else none

/-- Lazy name capture of the declaration patterns: the group `(.+?)`
followed by a closing quote class takes the characters up to the first
quote character, needing at least one character.  A carriage return
cannot be matched by `.`, so it aborts the candidate match. -/
def findClose (acc : List Char) : List Char → Option String
  | [] => none
  | c :: rest =>
    if isQuote c then some (String.mk acc.reverse)
    else if c.toNat = 13 then none
    else findClose (c :: acc) rest

/-- Attempt to match one declaration pattern at the current position:
the literal head (such as `test.only`), then optional whitespace, an
open parenthesis, optional whitespace, a quote, and the lazily captured
name up to the next quote. -/
def matchDeclAt (pat : List Char) (cs : List Char) : Option String :=
  match dropLiteral pat cs with
  | none => none
  | some rest =>
    match rest.dropWhile isJsWs with
    | '(' :: r2 =>
      match r2.dropWhile isJsWs with
      | q :: r4 =>
        if isQuote q then
          match r4 with
          | [] => none
          | c :: r5 =>
            if c.toNat = 13 then none else findClose [c] r5
        else none
      | [] => none
    | _ => none

/-- Leftmost match of a declaration pattern in one line (the single
`exec` call the source performs per pattern per line). -/
def findDecl (pat : List Char) : List Char → Option String
  | [] => none
  | c :: cs =>
    match matchDeclAt pat (c :: cs) with
    | some n => some n
    | none => findDecl pat cs

/-- The six declaration patterns of `extractTestsFromContent`, in
source order, with the kind each table assigns. -/
def allPatterns : List (String × TKind) :=
  [("test", TKind.test), ("test.only", TKind.test), ("test.skip", TKind.test),
   ("test.describe", TKind.describe), ("test.describe.only", TKind.describe),
   ("test.describe.skip", TKind.describe)]

/-- One character step of the brace counter of `extractTestBody`:
increment on an open brace (setting the started flag), decrement on a
close brace. -/
def scanChar (p : Int × Bool) (c : Char) : Int × Bool :=
  if c = openBrace then (p.1 + 1, true)
  else if c = closeBrace then (p.1 - 1, p.2)
  else p

/-- Brace counting across one line. -/
def scanLine (p : Int × Bool) (line : String) : Int × Bool :=
  line.data.foldl scanChar p

/-- Brace counting across a list of lines. -/
def scanLines (p : Int × Bool) (ls : List String) : Int × Bool :=
  ls.foldl scanLine p

/-- The body-capture loop of `extractTestBody`: push the line, update
the counter, stop when the depth is zero with the started flag set, or
when more than 500 lines have been pushed. -/
def extractBodyLines : List String → Int × Bool → Nat → List String
  | [], _, _ => []
  | line :: rest, p, count =>
    if (scanLine p line).2 = true ∧ (scanLine p line).1 = 0 then [line]
    else if count + 1 > 500 then [line]
    else line :: extractBodyLines rest (scanLine p line) (count + 1)

/-- `extractTestBody(lines, startLine)`: join of the captured lines
beginning at `startLine` (0-based). -/
def extractTestBody (lines : List String) (startLine : Nat) : String :=
  String.intercalate "\n" (extractBodyLines (lines.drop startLine) (0, false) 0)

/-- The per-line scan of `extractTestsFromContent`: every pattern is
tried once on every line, and each match yields one declaration whose
body capture starts at that line. -/
def extractLoop (allLines : List String) : Nat → List String → List TestDecl
  | _, [] => []
  | i, l :: rest =>
    (allPatterns.filterMap (fun pk =>
      (findDecl pk.1.data l.data).map (fun name =>
        ⟨name, i + 1, extractTestBody allLines i, pk.2⟩)))
      ++ extractLoop allLines (i + 1) rest

/-- `extractTestsFromContent`: split into lines, scan each line with the
six patterns, capture bodies by brace depth.  The `filePath` argument is
unused, as in the source. -/
def extractTestsFromContent (content : String) (_filePath : String) : List TestDecl :=
  let lines := splitOnChar '\n' content
  extractLoop lines 0 lines

/-- Identity key used by the diff passes. -/
def declKey (t : TestDecl) : String × TKind :=
  (t.testName, t.kind)

/-- The predicate both `find` calls of `analyzeTestFileChanges` use:
equal name and kind. -/
def keyPred (a : TestDecl) (t : TestDecl) : Bool :=
  decide (t.testName = a.testName ∧ t.kind = a.kind)

/-- Added record pushed by the head pass. -/
def mkAdded (filePath : String) (h : TestDecl) : TestChange :=
  ⟨TestChangeType.added, h.testName, filePath, h.lineNumber, h.kind, ImpactType.direct, none⟩

/-- Modified record pushed by the head pass. -/
def mkModified (filePath : String) (h : TestDecl) : TestChange :=
  ⟨TestChangeType.modified, h.testName, filePath, h.lineNumber, h.kind, ImpactType.direct, none⟩

/-- Removed record pushed by the base pass. -/
def mkRemoved (filePath : String) (b : TestDecl) : TestChange :=
  ⟨TestChangeType.removed, b.testName, filePath, b.lineNumber, b.kind, ImpactType.direct, none⟩

/-- Head-pass step of the differ: first base declaration with equal
name and kind (the `baseTests.find` call); no match gives Added, a match
with different body gives Modified, equal bodies give nothing. -/
def headPassF (baseTests : List TestDecl) (filePath : String) (headTest : TestDecl) :
    Option TestChange :=
  match baseTests.find? (keyPred headTest) with
  | none => some (mkAdded filePath headTest)
  | some matchingBaseTest =>
    if matchingBaseTest.content = headTest.content then none
    else some (mkModified filePath headTest)

/-- Base-pass step of the differ: a base declaration with no head
declaration of equal name and kind gives Removed. -/
def removedF (headTests : List TestDecl) (filePath : String) (baseTest : TestDecl) :
    Option TestChange :=
  match headTests.find? (keyPred baseTest) with
  | none => some (mkRemoved filePath baseTest)
  | some _ => none

/-- The diffing core of `analyzeTestFileChanges` (its two loops after
content retrieval): the head pass followed by the removed pass. -/
def diffTests (baseTests headTests : List TestDecl) (filePath : String) : List TestChange :=
  headTests.filterMap (headPassF baseTests filePath)
    ++ baseTests.filterMap (removedF headTests filePath)

/-- Suffix check on the raw character lists.  Each classification regex
is anchored at the end of the string with no other anchor, so a path
matches exactly when one expansion of the pattern is a suffix. -/
def strEndsWith (s t : String) : Bool :=
  t.data.isSuffixOf s.data

/-- `isPlaywrightTestFile`: the three anchored regexes of the source,
expanded into their alternation branches.
The first two patterns accept any path ending in a test suffix followed
by one of the four extensions; the third accepts any path ending in
`playwright.` followed by `ts`, `js`, `config.ts` or `config.js`. -/
def isPlaywrightTestFile (filePath : String) : Bool :=
  (strEndsWith filePath ".spec.ts" || strEndsWith filePath ".spec.js"
    || strEndsWith filePath ".spec.tsx" || strEndsWith filePath ".spec.jsx")
  || (strEndsWith filePath ".test.ts" || strEndsWith filePath ".test.js"
    || strEndsWith filePath ".test.tsx" || strEndsWith filePath ".test.jsx")
  || (strEndsWith filePath "playwright.ts" || strEndsWith filePath "playwright.js"
    || strEndsWith filePath "playwright.config.ts" || strEndsWith filePath "playwright.config.js")

/-- Segment normalization of node's posix `path.normalize`: drop empty
and `.` segments, resolve `..` against the stack, keeping leading `..`
segments only for relative paths. -/
def normSegs (allowUp : Bool) (segs : List String) : List String :=
  (segs.foldl (fun acc seg =>
    if seg = "" ∨ seg = "." then acc
    else if seg = ".." then
      match acc with
      | [] => if allowUp then [".."] else []
      | top :: rest => if top = ".." then seg :: acc else rest
    else seg :: acc) []).reverse

/-- node posix `path.normalize`. -/
def pathNormalize (p : String) : String :=
  if p = "" then "." else
  let isAbs := startsWithChar p '/'
  let trailingSep := endsWithChar p '/'
  let body := String.intercalate "/" (normSegs (!isAbs) (splitOnChar '/' p))
  let body := if body = "" ∧ ¬isAbs then "." else body
  let body := if body ≠ "" ∧ trailingSep then body ++ "/" else body
  if isAbs then "/" ++ body else body

/-- node posix `path.flatten` for two nonempty parts. -/
def pathJoin (a b : String) : String :=
  pathNormalize (a ++ "/" ++ b)

/-- node posix `path.dirname`: skip trailing slashes, cut at the last
remaining slash; with no such slash the result is `/` for rooted paths
and `.` otherwise. -/
def pathDirname (p : String) : String :=
  if p = "" then "." else
  let cs := p.data
  let hasRoot := cs.head? = some '/'
  let rest := (cs.reverse.dropWhile (fun c => c = '/')).dropWhile (fun c => c ≠ '/')
  match rest with
  | [] => if hasRoot then "/" else "."
  | _ :: tail =>
    let pre := tail.reverse
    if pre = [] then (if hasRoot then "/" else ".")
    else if hasRoot ∧ pre.length = 1 then "//"
    else String.mk pre

/-- The candidate list `possiblePaths` of `resolveImportPath`: the
normalized path itself, then each source extension appended, then the
index files inside it. -/
def possiblePaths (importSource importingFile : String) : List String :=
  let importingDir := pathDirname importingFile
  let resolved0 := pathNormalize (pathJoin importingDir importSource)
  let resolvedPath :=
    if startsWithChar resolved0 '/' then String.mk (resolved0.data.drop 1) else resolved0
  [resolvedPath,
   resolvedPath ++ ".ts", resolvedPath ++ ".js", resolvedPath ++ ".tsx", resolvedPath ++ ".jsx",
   pathJoin resolvedPath "index.ts", pathJoin resolvedPath "index.js",
   pathJoin resolvedPath "index.tsx", pathJoin resolvedPath "index.jsx"]

/-- The version-control collaborator for one `(base, head)` revision
pair: the `git diff --name-status` output, the readable files at the
base revision, and the head tree as a list of paths each carrying its
content when `git show` can retrieve it (`none` marks a path present in
the tree whose content read fails). -/
structure GitEnv where
  diffOutput : String
  baseFiles : List (String × String)
  headFiles : List (String × Option String)
deriving DecidableEq, Repr

/-- `git show base:path`, absent when the file does not exist there. -/
def showBase (g : GitEnv) (p : String) : Option String :=
  (g.baseFiles.find? (fun q => decide (q.1 = p))).map (fun q => q.2)

/-- Paths of the head tree (`git ls-tree -r --name-only head`). -/
def headTreePaths (g : GitEnv) : List String :=
  g.headFiles.map (fun q => q.1)

/-- `git show head:path`. -/
def showHead (g : GitEnv) (p : String) : Option String :=
  (g.headFiles.find? (fun q => decide (q.1 = p))).bind (fun q => q.2)

/-- `git cat-file -e head:path`, the existence probe of the resolver. -/
def pathExistsAtHead (g : GitEnv) (p : String) : Bool :=
  decide (p ∈ headTreePaths g)

/-- `resolveImportPath`: external specifiers (no leading `.` or `/`)
are unresolved; otherwise the first candidate of `possiblePaths` that
exists at the head revision. -/
def resolveImportPath (g : GitEnv) (importSource importingFile : String) : Option String :=
  if ¬ startsWithChar importSource '.' ∧ ¬ startsWithChar importSource '/' then none
  else (possiblePaths importSource importingFile).find? (pathExistsAtHead g)

/-- One module reference extracted by `extractImports` (`source` holds
the specifier string, `lineNumber` the 1-based line). -/
structure ImportRef where
  source : String
  lineNumber : Nat
deriving DecidableEq, Repr

/-- Consume at least one whitespace character, then any further ones
(the regex piece `\s+` followed by a non-whitespace requirement). -/
def dropWS1 (cs : List Char) : Option (List Char) :=
  match cs with
  | c :: rest => if isJsWs c then some (rest.dropWhile isJsWs) else none
  | [] => none

/-- The clause alternation of the static-import pattern: a braced
binding list, a namespace binding, or a bare identifier.  The three
alternatives start with distinct characters, so the regex backtracking
collapses to this case split. -/
def matchClause (cs : List Char) : Option (List Char) :=
  match cs with
  | [] => none
  | c :: rest =>
    if c = openBrace then
      match rest.dropWhile (fun d => d ≠ closeBrace) with
      | _ :: r2 => some r2
      | [] => none
    else if c = '*' then
      match dropWS1 rest with
      | some r1 =>
        match dropLiteral "as".data r1 with
        | some r2 =>
          match dropWS1 r2 with
          | some (d :: r3) => if isWordChar d then some (r3.dropWhile isWordChar) else none
          | _ => none
        | none => none
      | none => none
    else if isWordChar c then some (rest.dropWhile isWordChar)
    else none

/-- The optional `clause from` part of the static-import pattern. -/
def matchFromClause (cs : List Char) : Option (List Char) :=
  match matchClause cs with
  | none => none
  | some r1 =>
    match dropWS1 r1 with
    | none => none
    | some r2 =>
      match dropLiteral "from".data r2 with
      | none => none
      | some r3 => dropWS1 r3

/-- Quoted specifier of both module-reference patterns: a quote, at
least one non-quote character, a quote.  Returns the capture and the
rest after the closing quote. -/
def matchImportName (cs : List Char) : Option (String × List Char) :=
  match cs with
  | q :: r4 =>
    if isQuoteES6 q then
      let name := r4.takeWhile (fun c => !isQuoteES6 c)
      if name = [] then none
      else
        match r4.drop name.length with
        | _ :: r5 => some (String.mk name, r5)
        | [] => none
    else none
  | [] => none

/-- Attempt the static-import pattern at the current position: the
literal head, mandatory whitespace, the optional `clause from` part
(greedy, falling back to no clause when the quoted part fails after
it), the quoted specifier and an optional trailing semicolon. -/
def matchES6At (cs : List Char) : Option (String × List Char) :=
  match dropLiteral "import".data cs with
  | none => none
  | some r0 =>
    match dropWS1 r0 with
    | none => none
    | some r1 =>
      let finish := fun (r : List Char) =>
        match matchImportName r with
        | some (name, rest) =>
          match rest with
          | ';' :: r6 => some (name, r6)
          | _ => some (name, rest)
        | none => none
      match matchFromClause r1 with
      | some r =>
        match finish r with
        | some res => some res
        | none => finish r1
      | none => finish r1

/-- Attempt the require pattern at the current position: the literal
head, optional whitespace, parenthesis, optional whitespace, the quoted
specifier, optional whitespace, closing parenthesis. -/
def matchRequireAt (cs : List Char) : Option (String × List Char) :=
  match dropLiteral "require".data cs with
  | none => none
  | some r0 =>
    match r0.dropWhile isJsWs with
    | '(' :: r2 =>
      match matchImportName (r2.dropWhile isJsWs) with
      | some (name, r5) =>
        match r5.dropWhile isJsWs with
        | ')' :: r7 => some (name, r7)
        | _ => none
      | none => none
    | _ => none

/-- All matches of the static-import pattern in one line, left to
right, resuming after each match (the `while exec` loop with a global
regex).  The fuel argument starts at the line length and bounds the
scan. -/
def findAllES6 : Nat → List Char → List String
  | 0, _ => []
  | _ + 1, [] => []
  | n + 1, c :: cs =>
    match matchES6At (c :: cs) with
    | some (name, rest) => name :: findAllES6 n rest
    | none => findAllES6 n cs

/-- All matches of the require pattern in one line, left to right. -/
def findAllRequire : Nat → List Char → List String
  | 0, _ => []
  | _ + 1, [] => []
  | n + 1, c :: cs =>
    match matchRequireAt (c :: cs) with
    | some (name, rest) => name :: findAllRequire n rest
    | none => findAllRequire n cs

/-- Per-line accumulation of `extractImports`: static-import matches
first, then require matches, each tagged with the 1-based line. -/
def importsLoop : Nat → List String → List ImportRef
  | _, [] => []
  | i, l :: rest =>
    ((findAllES6 l.data.length l.data ++ findAllRequire l.data.length l.data).map
      (fun s => ⟨s, i + 1⟩))
      ++ importsLoop (i + 1) rest

/-- `extractImports`. -/
def extractImports (content : String) : List ImportRef :=
  importsLoop 0 (splitOnChar '\n' content)

/-- The import loop of `analyzeIndirectImpact`: resolve each reference
in order and stop at the first resolved path that is a changed non-test
path. -/
def findFirstResolved (g : GitEnv) (changedNonTestPaths : List String)
    (testFile : String) : List ImportRef → Option String
  | [] => none
  | imp :: rest =>
    match resolveImportPath g imp.source testFile with
    | some rp =>
      if rp ∈ changedNonTestPaths then some rp
      else findFirstResolved g changedNonTestPaths testFile rest
    | none => findFirstResolved g changedNonTestPaths testFile rest

/-- First changed non-test file one test file's imports resolve to. -/
def firstMatchingImport (g : GitEnv) (changedNonTestPaths : List String)
    (testFile : String) (content : String) : Option String :=
  findFirstResolved g changedNonTestPaths testFile (extractImports content)

/-- The per-file body of the indirect loop: unreadable head content is
skipped (the catch clause); on the first matching import every
declaration of the file becomes one Modified/indirect record carrying
that resolved path. -/
def perFileIndirect (g : GitEnv) (changedNonTestPaths : List String)
    (testFile : String) : List TestChange :=
  match showHead g testFile with
  | none => []
  | some testContent =>
    match firstMatchingImport g changedNonTestPaths testFile testContent with
    | none => []
    | some resolvedPath =>
      (extractTestsFromContent testContent testFile).map (fun test =>
        ⟨TestChangeType.modified, test.testName, testFile, test.lineNumber, test.kind,
         ImpactType.indirect, some resolvedPath⟩)

/-- The file loop of `analyzeIndirectImpact`. -/
def indirectLoop (g : GitEnv) (changedNonTestPaths : List String) :
    List String → List TestChange
  | [] => []
  | tf :: rest =>
    perFileIndirect g changedNonTestPaths tf ++ indirectLoop g changedNonTestPaths rest

/-- Test files of the head tree (`getAllTestFiles`). -/
def getAllTestFiles (g : GitEnv) : List String :=
  (headTreePaths g).filter isPlaywrightTestFile

/-- File-level change type parsed from the `name-status` letters. -/
inductive FileChangeType where
  | added
  | deleted
  | modified
  | renamed
deriving DecidableEq, Repr

/-- One entry of the changed-file list handed around by `analyze`. -/
structure ChangedFile where
  path : String
  changeType : FileChangeType
deriving DecidableEq, Repr

/-- `analyzeIndirectImpact`: examine only head test files that are not
among the changed test files. -/
def analyzeIndirectImpact (g : GitEnv) (changedNonTestFiles : List ChangedFile)
    (changedTestFiles : List ChangedFile) : List TestChange :=
  indirectLoop g (changedNonTestFiles.map (fun f => f.path))
    ((getAllTestFiles g).filter (fun testFile =>
      !(changedTestFiles.any (fun cf => decide (cf.path = testFile)))))

/-- Parsing of one `git diff --name-status` line in `getChangedFiles`:
blank lines are skipped, the first letter of the first tab field picks
the change type, `A`/`D`/`M` take the second field as the path and `R`
takes the third (the head-side path of a rename); a missing or empty
path field drops the line. -/
def parseLine (line : String) : Option ChangedFile :=
  if strTrim line = "" then none
  else
    let parts := splitOnChar '\t' line
    match (parts.headD "").data.head? with
    | some c =>
      if c = 'A' then
        (parts[1]?).bind (fun fp => if fp = "" then none else some ⟨fp, FileChangeType.added⟩)
      else if c = 'D' then
        (parts[1]?).bind (fun fp => if fp = "" then none else some ⟨fp, FileChangeType.deleted⟩)
      else if c = 'M' then
        (parts[1]?).bind (fun fp => if fp = "" then none else some ⟨fp, FileChangeType.modified⟩)
      else if c = 'R' then
        (parts[2]?).bind (fun fp => if fp = "" then none else some ⟨fp, FileChangeType.renamed⟩)
      else none
    | none => none

/-- `getChangedFiles`: trim the diff output, split into lines, parse
each. -/
def getChangedFiles (output : String) : List ChangedFile :=
  (splitOnChar '\n' (strTrim output)).filterMap parseLine

/-- Extraction applied to optional revision content: absent content
yields the empty declaration list. -/
def extractOpt : Option String → String → List TestDecl
  | none, _ => []
  | some c, fp => extractTestsFromContent c fp

/-- `analyzeTestFileChanges`: extract at both revisions under the given
path and diff. -/
def analyzeTestFileChanges (g : GitEnv) (filePath : String) : List TestChange :=
  diffTests (extractOpt (showBase g filePath) filePath)
    (extractOpt (showHead g filePath) filePath) filePath

/-- Per-file entry of the analysis result; `testChanges` is set only
for test files. -/
structure FileChange where
  filePath : String
  changeType : FileChangeType
  isTestFile : Bool
  testChanges : Option (List TestChange)
deriving DecidableEq, Repr

/-- The aggregate counters of the result. -/
structure AnalysisSummary where
  totalFilesChanged : Nat
  testFilesChanged : Nat
  testsAdded : Nat
  testsRemoved : Nat
  testsModified : Nat
  testsIndirectlyImpacted : Nat
deriving DecidableEq, Repr

/-- The analysis result. -/
structure ImpactAnalysisResult where
  baseCommit : String
  headCommit : String
  changedFiles : List FileChange
  directlyImpactedTests : List TestChange
  indirectlyImpactedTests : List TestChange
  summary : AnalysisSummary
deriving DecidableEq, Repr

/-- `analyze`: classify each changed file, diff the test files, run the
indirect pass when a non-test file changed, and compute the summary by
filtering the collected lists.  The source builds the partitions and
the direct list in one loop over the changed files; the filters below
produce the same lists in the same order. -/
def analyze (baseCommit headCommit : String) (g : GitEnv) : ImpactAnalysisResult :=
  let changedFiles := getChangedFiles g.diffOutput
  let changedTestFiles := changedFiles.filter (fun f => isPlaywrightTestFile f.path)
  let changedNonTestFiles := changedFiles.filter (fun f => !isPlaywrightTestFile f.path)
  let fileChanges := changedFiles.map (fun file =>
    ⟨file.path, file.changeType, isPlaywrightTestFile file.path,
     if isPlaywrightTestFile file.path then some (analyzeTestFileChanges g file.path)
     else none⟩)
  let directlyImpactedTests :=
    (changedTestFiles.map (fun f => analyzeTestFileChanges g f.path)).flatten
  let indirectlyImpactedTests :=
    if changedNonTestFiles.isEmpty then []
    else analyzeIndirectImpact g changedNonTestFiles changedTestFiles
  ⟨baseCommit, headCommit, fileChanges, directlyImpactedTests, indirectlyImpactedTests,
   ⟨fileChanges.length,
    (fileChanges.filter (fun f => f.isTestFile)).length,
    (directlyImpactedTests.filter (fun t => decide (t.type = TestChangeType.added))).length,
    (directlyImpactedTests.filter (fun t => decide (t.type = TestChangeType.removed))).length,
    (directlyImpactedTests.filter (fun t => decide (t.type = TestChangeType.modified))).length,
    indirectlyImpactedTests.length⟩⟩


/-- Remove the first element satisfying the predicate, returning it and
the remaining pool. -/
def consumeFirst (p : TestDecl → Bool) : List TestDecl → Option (TestDecl × List TestDecl)
  | [] => none
  | t :: ts =>
    if p t then some (t, ts)
    else (consumeFirst p ts).map (fun r => (r.1, t :: r.2))

/-- Modelled from the spec: the positional matching rule the spec
ascribes to the differ — each head declaration is matched to the first
base declaration with equal name and kind that was not matched by an
earlier head declaration, and the Removed pass then only considers the
base declarations left unmatched.  The analyzer itself carries no such
consumption of matched candidates; this definition exists to be
compared with `diffTests`. -/
def diffPositionalAux (fp : String) : List TestDecl → List TestDecl →
    List TestChange × List TestDecl
  | pool, [] => ([], pool)
  | pool, h :: hs =>
    match consumeFirst (keyPred h) pool with
    | none =>
      let r := diffPositionalAux fp pool hs
      (mkAdded fp h :: r.1, r.2)
    | some (b, pool2) =>
      let r := diffPositionalAux fp pool2 hs
      if b.content = h.content then r else (mkModified fp h :: r.1, r.2)

/-- Modelled from the spec: the full positional differ (head pass with
candidate consumption, then Removed for the leftover pool). -/
def diffTestsPositional (baseTests headTests : List TestDecl) (fp : String) :
    List TestChange :=
  let r := diffPositionalAux fp baseTests headTests
  r.1 ++ r.2.map (mkRemoved fp)

/-- Modelled from the spec: the classification predicate as the claim
words it — a path ending in `.spec.` or `.test.` plus a known source
extension, or one that equals a fixed Playwright configuration-file
name. -/
def claimTestFilePred (p : String) : Bool :=
  (strEndsWith p ".spec.ts" || strEndsWith p ".spec.js"
    || strEndsWith p ".spec.tsx" || strEndsWith p ".spec.jsx"
    || strEndsWith p ".test.ts" || strEndsWith p ".test.js"
    || strEndsWith p ".test.tsx" || strEndsWith p ".test.jsx")
  || decide (p ∈ (["playwright.ts", "playwright.js",
      "playwright.config.ts", "playwright.config.js"] : List String))

/-- The twelve suffix expansions of the three classification regexes. -/
def testFileSuffixes : List String :=
  [".spec.ts", ".spec.js", ".spec.tsx", ".spec.jsx",
   ".test.ts", ".test.js", ".test.tsx", ".test.jsx",
   "playwright.ts", "playwright.js", "playwright.config.ts", "playwright.config.js"]

/-
Lemma toolbox.  These helper lemmas are shared between the claim
theorems below; none of them is itself a claim theorem.
-/

theorem extractBodyLines_take (ls : List String) :
    ∀ p c, ∃ k, extractBodyLines ls p c = ls.take k := by
  induction ls with
  | nil => intro p c; exact ⟨0, rfl⟩
  | cons line rest ih =>
    intro p c
    by_cases h1 : (scanLine p line).2 = true ∧ (scanLine p line).1 = 0
    · exact ⟨1, by simp [extractBodyLines, h1]⟩
    · by_cases h2 : c + 1 > 500
      · exact ⟨1, by simp [extractBodyLines, h1, h2]⟩
      · obtain ⟨k, hk⟩ := ih (scanLine p line) (c + 1)
        exact ⟨k + 1, by simp [extractBodyLines, h1, h2, hk]⟩

theorem extractBodyLines_length (ls : List String) :
    ∀ p c, c ≤ 500 → (extractBodyLines ls p c).length + c ≤ 501 := by
  induction ls with
  | nil => intro p c hc; simp [extractBodyLines]; omega
  | cons line rest ih =>
    intro p c hc
    by_cases h1 : (scanLine p line).2 = true ∧ (scanLine p line).1 = 0
    · simp [extractBodyLines, h1]; omega
    · by_cases h2 : c + 1 > 500
      · simp [extractBodyLines, h1, h2]; omega
      · have hc1 : c + 1 ≤ 500 := by omega
        have := ih (scanLine p line) (c + 1) hc1
        simp [extractBodyLines, h1, h2]
        omega

theorem scanLines_cons (p : Int × Bool) (l : String) (ls : List String) :
    scanLines p (l :: ls) = scanLines (scanLine p l) ls := rfl

theorem extractBodyLines_min (ls : List String) :
    ∀ p c, ¬(p.2 = true ∧ p.1 = 0) →
      ∀ j < (extractBodyLines ls p c).length,
        ¬((scanLines p ((extractBodyLines ls p c).take j)).2 = true ∧
          (scanLines p ((extractBodyLines ls p c).take j)).1 = 0) := by
  induction ls with
  | nil => intro p c hp j hj; simp [extractBodyLines] at hj
  | cons line rest ih =>
    intro p c hp j hj
    by_cases h1 : (scanLine p line).2 = true ∧ (scanLine p line).1 = 0
    · simp only [extractBodyLines, if_pos h1] at hj ⊢
      have hj0 : j = 0 := by simp at hj; omega
      subst hj0
      simpa [scanLines] using hp
    · by_cases h2 : c + 1 > 500
      · simp only [extractBodyLines, if_neg h1, if_pos h2] at hj ⊢
        have hj0 : j = 0 := by simp at hj; omega
        subst hj0
        simpa [scanLines] using hp
      · simp only [extractBodyLines, if_neg h1, if_neg h2] at hj ⊢
        match j with
        | 0 => simpa [scanLines] using hp
        | j' + 1 =>
          simp only [List.length_cons, Nat.add_lt_add_iff_right] at hj
          simpa [List.take, scanLines_cons] using
            ih (scanLine p line) (c + 1) h1 j' hj

theorem extractBodyLines_complete (ls : List String) :
    ∀ p c, (extractBodyLines ls p c).length + c ≤ 500 →
      (extractBodyLines ls p c).length < ls.length →
      scanLines p (extractBodyLines ls p c) = (0, true) := by
  induction ls with
  | nil => intro p c _ hlt; simp [extractBodyLines] at hlt
  | cons line rest ih =>
    intro p c hle hlt
    by_cases h1 : (scanLine p line).2 = true ∧ (scanLine p line).1 = 0
    · simp only [extractBodyLines, if_pos h1]
      simp only [scanLines, List.foldl]
      exact Prod.ext h1.2 h1.1
    · by_cases h2 : c + 1 > 500
      · simp only [extractBodyLines, if_neg h1, if_pos h2] at hle
        simp at hle
        omega
      · simp only [extractBodyLines, if_neg h1, if_neg h2] at hle hlt ⊢
        simp only [List.length_cons] at hle hlt
        rw [scanLines_cons]
        exact ih (scanLine p line) (c + 1) (by omega) (by omega)

theorem extractLoop_mem (allLines : List String) :
    ∀ i rem (t : TestDecl), t ∈ extractLoop allLines i rem →
      ∃ j, j < rem.length ∧ t.lineNumber = i + j + 1 ∧
        t.content = extractTestBody allLines (i + j) := by
  intro i rem
  induction rem generalizing i with
  | nil => intro t ht; simp [extractLoop] at ht
  | cons l rest ih =>
    intro t ht
    simp only [extractLoop, List.mem_append] at ht
    rcases ht with ht | ht
    · rcases List.mem_filterMap.mp ht with ⟨pk, _, hpk⟩
      rcases Option.map_eq_some'.mp hpk with ⟨name, _, hrec⟩
      refine ⟨0, by simp, ?_, ?_⟩
      · rw [← hrec]
      · rw [← hrec]; simp
    · rcases ih (i + 1) t ht with ⟨j, hj, hl, hc⟩
      refine ⟨j + 1, by simpa using hj, ?_, ?_⟩
      · rw [hl]; omega
      · rw [hc]; congr 1; omega

theorem extractTestsFromContent_mem (content fp : String) (t : TestDecl)
    (ht : t ∈ extractTestsFromContent content fp) :
    ∃ i, i < (splitOnChar '\n' content).length ∧ t.lineNumber = i + 1 ∧
      t.content = extractTestBody (splitOnChar '\n' content) i := by
  rcases extractLoop_mem (splitOnChar '\n' content) 0 (splitOnChar '\n' content) t ht
    with ⟨j, hj, hl, hc⟩
  exact ⟨j, hj, by simpa using hl, by simpa using hc⟩

/-- C2 (amended): for every file text and every extracted declaration,
the captured body is a contiguous block of lines beginning at the
declaration's start line; it holds at most 501 lines (the cap fires
once more than 500 lines are collected); no proper prefix of the body
ends with the brace depth at zero after an open brace has been seen;
and whenever the body ended neither at the cap nor at the end of the
input, its final state is depth exactly zero with an open brace seen,
so such a body has net delimiter depth zero. -/
theorem C2_body_capture (content fp : String) (t : TestDecl)
    (ht : t ∈ extractTestsFromContent content fp) :
    ∃ i body, t.lineNumber = i + 1 ∧
      body = extractBodyLines ((splitOnChar '\n' content).drop i) (0, false) 0 ∧
      t.content = String.intercalate "\n" body ∧
      (∃ k, body = ((splitOnChar '\n' content).drop i).take k) ∧
      body.length ≤ 501 ∧
      (∀ j < body.length,
        ¬((scanLines (0, false) (body.take j)).2 = true ∧
          (scanLines (0, false) (body.take j)).1 = 0)) ∧
      (body.length ≤ 500 → body.length < ((splitOnChar '\n' content).drop i).length →
        scanLines (0, false) body = (0, true)) := by
  rcases extractTestsFromContent_mem content fp t ht with ⟨i, _, hl, hc⟩
  refine ⟨i, extractBodyLines ((splitOnChar '\n' content).drop i) (0, false) 0,
    hl, rfl, hc, ?_, ?_, ?_, ?_⟩
  · exact extractBodyLines_take _ _ _
  · have := extractBodyLines_length ((splitOnChar '\n' content).drop i) (0, false) 0 (by omega)
    omega
  · exact extractBodyLines_min _ _ _ (by simp)
  · intro h500 hlt
    exact extractBodyLines_complete _ _ _ (by omega) hlt

set_option maxRecDepth 40000 in
/-- C2 counterexample: a one-line declaration whose opening brace is
never closed is captured whole at end of input — one line, far below
the cap, with net brace depth 1, not 0 — and the line cap admits 501
captured lines, not 500. -/
theorem C2_counterexample :
    ((extractTestsFromContent "test(\"a\", () => \x7b" "f.spec.ts").map
        (fun t => t.content) = ["test(\"a\", () => \x7b"]) ∧
    scanLines (0, false) ["test(\"a\", () => \x7b"] = (1, true) ∧
    (extractBodyLines (List.replicate 502 (String.mk [openBrace])) (0, false) 0).length
      = 501 := by
  refine ⟨by decide, by decide, by decide⟩

/-- C2 witness: the amended statement instantiated at a balanced
one-line test. -/
theorem C2_body_capture_witness :
    ∃ i body,
      (⟨"a", 1, "test(\"a\", () => \x7b\x7d)", TKind.test⟩ : TestDecl).lineNumber = i + 1 ∧
      body = extractBodyLines ((splitOnChar '\n' "test(\"a\", () => \x7b\x7d)").drop i) (0, false) 0 ∧
      (⟨"a", 1, "test(\"a\", () => \x7b\x7d)", TKind.test⟩ : TestDecl).content
        = String.intercalate "\n" body ∧
      (∃ k, body = ((splitOnChar '\n' "test(\"a\", () => \x7b\x7d)").drop i).take k) ∧
      body.length ≤ 501 ∧
      (∀ j < body.length,
        ¬((scanLines (0, false) (body.take j)).2 = true ∧
          (scanLines (0, false) (body.take j)).1 = 0)) ∧
      (body.length ≤ 500 →
        body.length < ((splitOnChar '\n' "test(\"a\", () => \x7b\x7d)").drop i).length →
        scanLines (0, false) body = (0, true)) :=
  C2_body_capture "test(\"a\", () => \x7b\x7d)" "f.spec.ts"
    ⟨"a", 1, "test(\"a\", () => \x7b\x7d)", TKind.test⟩ (by decide)

theorem keyPred_iff (a t : TestDecl) : keyPred a t = true ↔ declKey t = declKey a := by
  simp [keyPred, declKey, Prod.ext_iff]

theorem mem_diffTests {baseTests headTests : List TestDecl} {fp : String} {r : TestChange} :
    r ∈ diffTests baseTests headTests fp ↔
      (∃ x ∈ headTests, headPassF baseTests fp x = some r) ∨
      (∃ x ∈ baseTests, removedF headTests fp x = some r) := by
  simp [diffTests, List.mem_append, List.mem_filterMap]

theorem headPassF_some {baseTests : List TestDecl} {fp : String} {x : TestDecl}
    {r : TestChange} (hx : headPassF baseTests fp x = some r) :
    r.testName = x.testName ∧ r.changeKind = x.kind ∧ r.filePath = fp ∧
      r.impactType = ImpactType.direct ∧
      (r.type = TestChangeType.added ∨ r.type = TestChangeType.modified) := by
  unfold headPassF at hx
  split at hx
  · cases hx
    simp [mkAdded]
  · split at hx
    · cases hx
    · cases hx
      simp [mkModified]

theorem removedF_some {headTests : List TestDecl} {fp : String} {x : TestDecl}
    {r : TestChange} (hx : removedF headTests fp x = some r) :
    headTests.find? (keyPred x) = none ∧ r = mkRemoved fp x := by
  unfold removedF at hx
  split at hx
  · cases hx; exact ⟨by assumption, rfl⟩
  · cases hx

theorem diffTests_direct {baseTests headTests : List TestDecl} {fp : String}
    {r : TestChange} (hr : r ∈ diffTests baseTests headTests fp) :
    r.impactType = ImpactType.direct := by
  rcases mem_diffTests.mp hr with ⟨x, _, hx⟩ | ⟨x, _, hx⟩
  · exact (headPassF_some hx).2.2.2.1
  · rw [(removedF_some hx).2]; rfl

theorem diffTests_filePath {baseTests headTests : List TestDecl} {fp : String}
    {r : TestChange} (hr : r ∈ diffTests baseTests headTests fp) :
    r.filePath = fp := by
  rcases mem_diffTests.mp hr with ⟨x, _, hx⟩ | ⟨x, _, hx⟩
  · exact (headPassF_some hx).2.2.1
  · rw [(removedF_some hx).2]; rfl

theorem find?_keyPred_unique {l : List TestDecl} {a b : TestDecl}
    (hnd : (l.map declKey).Nodup) (hb : b ∈ l) (hkey : declKey b = declKey a) :
    l.find? (keyPred a) = some b := by
  have hsome : (l.find? (keyPred a)).isSome :=
    List.find?_isSome.mpr ⟨b, hb, (keyPred_iff a b).mpr hkey⟩
  rcases Option.isSome_iff_exists.mp hsome with ⟨c, hc⟩
  have hcmem : c ∈ l := List.mem_of_find?_eq_some hc
  have hckey : declKey c = declKey a := (keyPred_iff a c).mp (List.find?_some hc)
  have : c = b := List.inj_on_of_nodup_map hnd hcmem hb (hckey.trans hkey.symm)
  rw [← this]; exact hc

/-- C1 (amended): provided each (name, kind) pair occurs at most once
among the base declarations and at most once among the head
declarations, the differ emits, for each head declaration, Added when
no base declaration has equal (name, kind), Modified when the matching
base declaration's captured body differs, and no record at all for the
declaration's (name, kind) when the bodies are equal — so a declaration
present in both lists with equal name, kind and body, including one
that merely moved to a different line, is never reported; each base
declaration whose (name, kind) matches no head declaration yields
Removed; and every emitted record carries impact origin Direct. -/
theorem C1_diff_rule (baseTests headTests : List TestDecl) (fp : String)
    (hb : (baseTests.map declKey).Nodup) (hh : (headTests.map declKey).Nodup) :
    (∀ h ∈ headTests, (∀ b ∈ baseTests, declKey b ≠ declKey h) →
        mkAdded fp h ∈ diffTests baseTests headTests fp) ∧
    (∀ h ∈ headTests, ∀ b ∈ baseTests, declKey b = declKey h → b.content ≠ h.content →
        mkModified fp h ∈ diffTests baseTests headTests fp) ∧
    (∀ h ∈ headTests, ∀ b ∈ baseTests, declKey b = declKey h → b.content = h.content →
        ∀ r ∈ diffTests baseTests headTests fp,
          ¬(r.testName = h.testName ∧ r.changeKind = h.kind)) ∧
    (∀ b ∈ baseTests, (∀ h ∈ headTests, declKey h ≠ declKey b) →
        mkRemoved fp b ∈ diffTests baseTests headTests fp) ∧
    (∀ r ∈ diffTests baseTests headTests fp, r.impactType = ImpactType.direct) := by
  refine ⟨?_, ?_, ?_, ?_, ?_⟩
  · intro h hmem hno
    have hfind : baseTests.find? (keyPred h) = none :=
      List.find?_eq_none.mpr (fun b hbm => by
        simp only [keyPred_iff]
        exact fun hk => hno b hbm hk)
    refine mem_diffTests.mpr (Or.inl ⟨h, hmem, ?_⟩)
    simp [headPassF, hfind]
  · intro h hmem b hbm hkey hne
    have hfind := find?_keyPred_unique hb hbm hkey
    refine mem_diffTests.mpr (Or.inl ⟨h, hmem, ?_⟩)
    simp [headPassF, hfind, hne]
  · intro h hmem b hbm hkey heq r hr hrk
    have hrkey : (r.testName, r.changeKind) = declKey h := by
      simp [declKey, hrk.1, hrk.2]
    rcases mem_diffTests.mp hr with ⟨x, hxm, hx⟩ | ⟨x, hxm, hx⟩
    · have hxf := headPassF_some hx
      have hxkey : declKey x = declKey h := by
        rw [← hrkey]; simp [declKey, hxf.1, hxf.2.1]
      have hxh : x = h := List.inj_on_of_nodup_map hh hxm hmem hxkey
      subst hxh
      have hfind := find?_keyPred_unique hb hbm hkey
      simp [headPassF, hfind, heq] at hx
    · rcases removedF_some hx with ⟨hfind, hrx⟩
      have hxkey : declKey x = declKey h := by
        rw [← hrkey, hrx]; simp [declKey, mkRemoved]
      have := List.find?_eq_none.mp hfind h hmem
      simp only [keyPred_iff] at this
      exact this (hxkey.symm)
  · intro b hbm hno
    have hfind : headTests.find? (keyPred b) = none :=
      List.find?_eq_none.mpr (fun h hhm => by
        simp only [keyPred_iff]
        exact fun hk => hno h hhm hk)
    refine mem_diffTests.mpr (Or.inr ⟨b, hbm, ?_⟩)
    simp [removedF, hfind]
  · intro r hr
    exact diffTests_direct hr

/-- C1 counterexample: with a duplicated (name, kind) key in the base
list, the head declaration `A`/`body2` has a base counterpart with
equal name, kind and body, yet the differ reports it as Modified
(matching against the first key-equal base declaration, whose body
differs), contradicting the claim that such a declaration is never
reported as changed. -/
theorem C1_counterexample :
    diffTests [⟨"A", 1, "body1", TKind.test⟩, ⟨"A", 2, "body2", TKind.test⟩]
        [⟨"A", 1, "body2", TKind.test⟩] "f.spec.ts"
      = [mkModified "f.spec.ts" ⟨"A", 1, "body2", TKind.test⟩] ∧
    declKey (⟨"A", 2, "body2", TKind.test⟩ : TestDecl)
      = declKey (⟨"A", 1, "body2", TKind.test⟩ : TestDecl) ∧
    (⟨"A", 2, "body2", TKind.test⟩ : TestDecl).content
      = (⟨"A", 1, "body2", TKind.test⟩ : TestDecl).content := by
  refine ⟨by decide, by decide, by decide⟩

/-- C1 witness: the amended rule instantiated at a base list with one
test and a head list where that test's body changed and a new test
appeared. -/
theorem C1_diff_rule_witness :
    mkModified "f.spec.ts" ⟨"one", 1, "bodyB", TKind.test⟩ ∈
      diffTests [⟨"one", 1, "bodyA", TKind.test⟩]
        [⟨"one", 1, "bodyB", TKind.test⟩, ⟨"two", 3, "c", TKind.test⟩] "f.spec.ts" ∧
    mkAdded "f.spec.ts" ⟨"two", 3, "c", TKind.test⟩ ∈
      diffTests [⟨"one", 1, "bodyA", TKind.test⟩]
        [⟨"one", 1, "bodyB", TKind.test⟩, ⟨"two", 3, "c", TKind.test⟩] "f.spec.ts" := by
  have C := C1_diff_rule [⟨"one", 1, "bodyA", TKind.test⟩]
    [⟨"one", 1, "bodyB", TKind.test⟩, ⟨"two", 3, "c", TKind.test⟩] "f.spec.ts"
    (by decide) (by decide)
  exact ⟨C.2.1 ⟨"one", 1, "bodyB", TKind.test⟩ (by decide) ⟨"one", 1, "bodyA", TKind.test⟩
      (by decide) (by decide) (by decide),
    C.1 ⟨"two", 3, "c", TKind.test⟩ (by decide) (by decide)⟩

/-- C4 (amended): duplicate (name, kind) pairs are kept as distinct
extraction entries, but diffing does not consume matched candidates:
each head occurrence is matched against the first base declaration with
equal (name, kind) regardless of earlier matches (several head
occurrences can match the same base declaration), and the Removed pass
emits Removed exactly for the base declarations whose (name, kind)
appears in no head declaration. -/
theorem C4_matching_rule :
    ((extractTestsFromContent
        "test(\"a\", () => \x7bx\x7d)\ntest(\"a\", () => \x7by\x7d)" "f.spec.ts").map declKey
      = [("a", TKind.test), ("a", TKind.test)]) ∧
    (∀ (baseTests headTests : List TestDecl) (fp : String), ∀ h ∈ headTests,
        baseTests.find? (keyPred h) = none →
        mkAdded fp h ∈ diffTests baseTests headTests fp) ∧
    (∀ (baseTests headTests : List TestDecl) (fp : String), ∀ h ∈ headTests, ∀ b,
        baseTests.find? (keyPred h) = some b → b.content ≠ h.content →
        mkModified fp h ∈ diffTests baseTests headTests fp) ∧
    (∀ (baseTests headTests : List TestDecl) (fp : String), ∀ b ∈ baseTests,
        headTests.find? (keyPred b) = none →
        mkRemoved fp b ∈ diffTests baseTests headTests fp) ∧
    (∀ (baseTests headTests : List TestDecl) (fp : String),
      ∀ r ∈ diffTests baseTests headTests fp,
        (∃ h ∈ headTests,
          (baseTests.find? (keyPred h) = none ∧ r = mkAdded fp h) ∨
          (∃ b, baseTests.find? (keyPred h) = some b ∧ b.content ≠ h.content ∧
            r = mkModified fp h)) ∨
        (∃ b ∈ baseTests, headTests.find? (keyPred b) = none ∧ r = mkRemoved fp b)) := by
  refine ⟨by decide, ?_, ?_, ?_, ?_⟩
  · intro baseTests headTests fp h hmem hfind
    refine mem_diffTests.mpr (Or.inl ⟨h, hmem, ?_⟩)
    simp [headPassF, hfind]
  · intro baseTests headTests fp h hmem b hfind hne
    refine mem_diffTests.mpr (Or.inl ⟨h, hmem, ?_⟩)
    simp [headPassF, hfind, hne]
  · intro baseTests headTests fp b hbm hfind
    refine mem_diffTests.mpr (Or.inr ⟨b, hbm, ?_⟩)
    simp [removedF, hfind]
  · intro baseTests headTests fp r hr
    rcases mem_diffTests.mp hr with ⟨x, hxm, hx⟩ | ⟨x, hxm, hx⟩
    · refine Or.inl ⟨x, hxm, ?_⟩
      unfold headPassF at hx
      split at hx
      · cases hx
        exact Or.inl ⟨by assumption, rfl⟩
      · split at hx
        · cases hx
        · cases hx
          refine Or.inr ⟨_, by assumption, by assumption, rfl⟩
    · rcases removedF_some hx with ⟨hfind, hrx⟩
      exact Or.inr ⟨x, hxm, hfind, hrx⟩

/-- C4 counterexample: base holds two declarations with the duplicated
key `("A", test)` and head keeps only the first; under the claimed
positional matching the second base occurrence is left unmatched and
must be reported Removed, but the differ emits nothing, because the
Removed pass only asks whether the key occurs anywhere in head. -/
theorem C4_counterexample :
    diffTests [⟨"A", 1, "b1", TKind.test⟩, ⟨"A", 2, "b2", TKind.test⟩]
        [⟨"A", 1, "b1", TKind.test⟩] "f.spec.ts" = [] ∧
    diffTestsPositional [⟨"A", 1, "b1", TKind.test⟩, ⟨"A", 2, "b2", TKind.test⟩]
        [⟨"A", 1, "b1", TKind.test⟩] "f.spec.ts"
      = [mkRemoved "f.spec.ts" ⟨"A", 2, "b2", TKind.test⟩] := by
  refine ⟨by decide, by decide⟩

/-- C4 witness: the amended matching rule instantiated at a base list
whose duplicated key is matched twice by head occurrences. -/
theorem C4_matching_rule_witness :
    mkModified "g.spec.ts" ⟨"A", 5, "zz", TKind.test⟩ ∈
      diffTests [⟨"A", 1, "b1", TKind.test⟩, ⟨"A", 2, "b2", TKind.test⟩]
        [⟨"A", 1, "b1", TKind.test⟩, ⟨"A", 5, "zz", TKind.test⟩] "g.spec.ts" ∧
    mkRemoved "g.spec.ts" ⟨"B", 9, "w", TKind.describe⟩ ∈
      diffTests [⟨"B", 9, "w", TKind.describe⟩] [] "g.spec.ts" := by
  have C := C4_matching_rule
  exact ⟨C.2.2.1 [⟨"A", 1, "b1", TKind.test⟩, ⟨"A", 2, "b2", TKind.test⟩]
      [⟨"A", 1, "b1", TKind.test⟩, ⟨"A", 5, "zz", TKind.test⟩] "g.spec.ts"
      ⟨"A", 5, "zz", TKind.test⟩ (by decide) ⟨"A", 1, "b1", TKind.test⟩ (by decide) (by decide),
    C.2.2.2.1 [⟨"B", 9, "w", TKind.describe⟩] [] "g.spec.ts"
      ⟨"B", 9, "w", TKind.describe⟩ (by decide) (by decide)⟩

theorem strEndsWith_iff (s t : String) :
    strEndsWith s t = true ↔ ∃ pre, s.data = pre ++ t.data := by
  simp only [strEndsWith, List.isSuffixOf_iff_suffix, List.IsSuffix]
  constructor
  · rintro ⟨pre, hp⟩; exact ⟨pre, hp.symm⟩
  · rintro ⟨pre, hp⟩; exact ⟨pre, hp.symm⟩

/-- C6 (amended): the classification predicate is a pure function of
the path string that matches exactly when one of the twelve suffix
expansions of the three patterns ends the path — `.spec.` or `.test.`
followed by ts, js, tsx or jsx, or `playwright.` followed by ts, js,
`config.ts` or `config.js`; the Playwright configuration patterns are
suffix matches, not exact-name matches. -/
theorem C6_classification (p : String) :
    isPlaywrightTestFile p = true ↔
      ∃ t ∈ testFileSuffixes, ∃ pre, p.data = pre ++ t.data := by
  simp only [isPlaywrightTestFile, Bool.or_eq_true, strEndsWith_iff, testFileSuffixes,
    List.mem_cons, List.not_mem_nil, or_false, exists_eq_or_imp, exists_eq_left]
  tauto

/-- C6 counterexample: `myplaywright.ts` matches the third source
pattern (a suffix test), but it neither carries a test suffix nor
equals one of the four Playwright configuration-file names, so the
claimed predicate rejects it. -/
theorem C6_counterexample :
    isPlaywrightTestFile "myplaywright.ts" = true ∧
    claimTestFilePred "myplaywright.ts" = false := by
  refine ⟨by decide, by decide⟩

/-- C6 witness: the amended characterization instantiated at a
spec-suffixed path. -/
theorem C6_classification_witness :
    isPlaywrightTestFile "tests/login.spec.ts" = true :=
  (C6_classification "tests/login.spec.ts").mpr
    ⟨".spec.ts", by decide, "tests/login".data, by decide⟩

/-- C5: a specifier that begins with neither `.` nor `/` is always
unresolved; a relative or absolute specifier is resolved to the first
candidate of the fixed probe list (the normalized literal path, the
four extension variants, then the four directory-index variants) that
exists at the head revision, and is unresolved when no candidate
exists. -/
theorem C5_resolution (g : GitEnv) (importSource importingFile : String) :
    (startsWithChar importSource '.' = false → startsWithChar importSource '/' = false →
      resolveImportPath g importSource importingFile = none) ∧
    ((startsWithChar importSource '.' = true ∨ startsWithChar importSource '/' = true) →
      resolveImportPath g importSource importingFile
        = (possiblePaths importSource importingFile).find? (pathExistsAtHead g)) ∧
    (∀ p, resolveImportPath g importSource importingFile = some p →
      pathExistsAtHead g p = true ∧
      ∃ l1 l2, possiblePaths importSource importingFile = l1 ++ p :: l2 ∧
        ∀ q ∈ l1, pathExistsAtHead g q = false) ∧
    (resolveImportPath g importSource importingFile = none →
      (startsWithChar importSource '.' = false ∧ startsWithChar importSource '/' = false) ∨
      (∀ q ∈ possiblePaths importSource importingFile, pathExistsAtHead g q = false)) := by
  refine ⟨?_, ?_, ?_, ?_⟩
  · intro h1 h2
    simp [resolveImportPath, h1, h2]
  · intro h
    have hcond : ¬(¬ startsWithChar importSource '.' = true ∧
        ¬ startsWithChar importSource '/' = true) := by
      rcases h with h | h <;> simp [h]
    unfold resolveImportPath
    rw [if_neg hcond]
  · intro p hp
    unfold resolveImportPath at hp
    split at hp
    · cases hp
    · rcases List.find?_eq_some.mp hp with ⟨hpx, l1, l2, hdecomp, hall⟩
      refine ⟨hpx, l1, l2, hdecomp, fun q hq => ?_⟩
      have := hall q hq
      simpa using this
  · intro hp
    unfold resolveImportPath at hp
    split at hp
    · rename_i hcond
      left
      exact ⟨by simpa using hcond.1, by simpa using hcond.2⟩
    · right
      intro q hq
      have := List.find?_eq_none.mp hp q hq
      simpa using this

/-- Shared concrete environment for the witnesses: `helpers.ts` and
`a.spec.ts` changed; `b.spec.ts` is an unchanged test file at head that
requires `./helpers`. -/
def envW : GitEnv :=
  ⟨"M\thelpers.ts\nM\ta.spec.ts",
   [("a.spec.ts", "test(\"one\", () => \x7b\x7d)")],
   [("a.spec.ts", some "test(\"one\", () => \x7b1\x7d)"),
    ("b.spec.ts", some "const h = require(\"./helpers\")\ntest(\"two\", () => \x7b\x7d)"),
    ("helpers.ts", some "const x = 1")]⟩

/-- C5 witness: the theorem instantiated at an external specifier and
at the relative specifier `./helpers` of the shared environment, which
resolves to the changed `helpers.ts` after one failed probe. -/
theorem C5_resolution_witness :
    resolveImportPath envW "react" "b.spec.ts" = none ∧
    (pathExistsAtHead envW "helpers.ts" = true ∧
      ∃ l1 l2, possiblePaths "./helpers" "b.spec.ts" = l1 ++ "helpers.ts" :: l2 ∧
        ∀ q ∈ l1, pathExistsAtHead envW q = false) :=
  ⟨(C5_resolution envW "react" "b.spec.ts").1 (by decide) (by decide),
   (C5_resolution envW "./helpers" "b.spec.ts").2.2.1 "helpers.ts" (by decide)⟩

theorem findFirstResolved_mem {g : GitEnv} {paths : List String} {tf rp : String} :
    ∀ {l : List ImportRef}, findFirstResolved g paths tf l = some rp → rp ∈ paths := by
  intro l
  induction l with
  | nil => intro h; simp [findFirstResolved] at h
  | cons imp rest ih =>
    intro h
    unfold findFirstResolved at h
    split at h
    · split at h
      · cases h; assumption
      · exact ih h
    · exact ih h

theorem mem_perFileIndirect {g : GitEnv} {paths : List String} {tf : String}
    {r : TestChange} (hr : r ∈ perFileIndirect g paths tf) :
    r.type = TestChangeType.modified ∧ r.impactType = ImpactType.indirect ∧
      r.filePath = tf ∧
      ∃ c rp, showHead g tf = some c ∧ firstMatchingImport g paths tf c = some rp ∧
        r.impactedBy = some rp ∧ rp ∈ paths := by
  unfold perFileIndirect at hr
  split at hr
  · simp at hr
  · rename_i c hc
    split at hr
    · simp at hr
    · rename_i rp hrp
      rcases List.mem_map.mp hr with ⟨t, _, hrt⟩
      subst hrt
      exact ⟨rfl, rfl, rfl, c, rp, hc, hrp, rfl, findFirstResolved_mem hrp⟩

theorem mem_indirectLoop {g : GitEnv} {paths : List String} {r : TestChange} :
    ∀ {l : List String}, r ∈ indirectLoop g paths l →
      ∃ tf ∈ l, r ∈ perFileIndirect g paths tf := by
  intro l
  induction l with
  | nil => intro h; simp [indirectLoop] at h
  | cons tf rest ih =>
    intro h
    rcases List.mem_append.mp h with h | h
    · exact ⟨tf, List.mem_cons_self _ _, h⟩
    · rcases ih h with ⟨tf', htf', hr⟩
      exact ⟨tf', List.mem_cons_of_mem _ htf', hr⟩

theorem analyze_direct_eq (base head : String) (g : GitEnv) :
    (analyze base head g).directlyImpactedTests
      = (((getChangedFiles g.diffOutput).filter (fun f => isPlaywrightTestFile f.path)).map
          (fun f => analyzeTestFileChanges g f.path)).flatten := rfl

theorem analyze_indirect_eq (base head : String) (g : GitEnv) :
    (analyze base head g).indirectlyImpactedTests
      = (if ((getChangedFiles g.diffOutput).filter
            (fun f => !isPlaywrightTestFile f.path)).isEmpty then []
         else analyzeIndirectImpact g
            ((getChangedFiles g.diffOutput).filter (fun f => !isPlaywrightTestFile f.path))
            ((getChangedFiles g.diffOutput).filter (fun f => isPlaywrightTestFile f.path))) :=
  rfl

theorem analyze_changedFiles_eq (base head : String) (g : GitEnv) :
    (analyze base head g).changedFiles
      = (getChangedFiles g.diffOutput).map (fun file =>
          ⟨file.path, file.changeType, isPlaywrightTestFile file.path,
           if isPlaywrightTestFile file.path then some (analyzeTestFileChanges g file.path)
           else none⟩) := rfl

theorem mem_analyzeIndirectImpact {g : GitEnv} {cnf ctf : List ChangedFile}
    {r : TestChange} (hr : r ∈ analyzeIndirectImpact g cnf ctf) :
    (∀ cf ∈ ctf, cf.path ≠ r.filePath) ∧
      r.type = TestChangeType.modified ∧ r.impactType = ImpactType.indirect ∧
      (∃ f ∈ cnf, r.impactedBy = some f.path) ∧
      (∃ c rp, showHead g r.filePath = some c ∧
        firstMatchingImport g (cnf.map (fun f => f.path)) r.filePath c = some rp ∧
        r.impactedBy = some rp) := by
  unfold analyzeIndirectImpact at hr
  rcases mem_indirectLoop hr with ⟨tf, htf, hpf⟩
  rcases mem_perFileIndirect hpf with ⟨h1, h2, h3, c, rp, hc, hrp, hib, hmem⟩
  subst h3
  refine ⟨?_, h1, h2, ?_, c, rp, hc, hrp, hib⟩
  · intro cf hcf
    have := (List.mem_filter.mp htf).2
    simp only [Bool.not_eq_true', List.any_eq_false, decide_eq_true_eq] at this
    simpa using this cf hcf
  · rcases List.mem_map.mp hmem with ⟨f, hf, hfp⟩
    exact ⟨f, hf, by rw [hib, hfp]⟩

/-- C3: every record of the indirect pass concerns a test file outside
the changed-test-file set, carries change type Modified and impact
origin Indirect, and names an `impactedBy` path drawn from the changed
non-test files; all records of one test file share a single
`impactedBy` value (the scan stops at the first resolved matching
import); and at the analysis level an indirectly impacted file never
coincides with the file of any direct record. -/
theorem C3_indirect_invariants :
    (∀ (g : GitEnv) (cnf ctf : List ChangedFile), ∀ r ∈ analyzeIndirectImpact g cnf ctf,
        (∀ cf ∈ ctf, cf.path ≠ r.filePath) ∧
        r.type = TestChangeType.modified ∧ r.impactType = ImpactType.indirect ∧
        (∃ f ∈ cnf, r.impactedBy = some f.path)) ∧
    (∀ (g : GitEnv) (cnf ctf : List ChangedFile),
      ∀ r ∈ analyzeIndirectImpact g cnf ctf, ∀ r' ∈ analyzeIndirectImpact g cnf ctf,
        r.filePath = r'.filePath → r.impactedBy = r'.impactedBy) ∧
    (∀ (base head : String) (g : GitEnv),
      ∀ r ∈ (analyze base head g).indirectlyImpactedTests,
      ∀ d ∈ (analyze base head g).directlyImpactedTests, r.filePath ≠ d.filePath) := by
  refine ⟨?_, ?_, ?_⟩
  · intro g cnf ctf r hr
    rcases mem_analyzeIndirectImpact hr with ⟨h1, h2, h3, h4, _⟩
    exact ⟨h1, h2, h3, h4⟩
  · intro g cnf ctf r hr r' hr' hpath
    rcases mem_analyzeIndirectImpact hr with ⟨_, _, _, _, c, rp, hc, hrp, hib⟩
    rcases mem_analyzeIndirectImpact hr' with ⟨_, _, _, _, c', rp', hc', hrp', hib'⟩
    rw [hpath] at hc hrp
    rw [hc'] at hc
    cases hc
    rw [hrp'] at hrp
    cases hrp
    rw [hib, hib']
  · intro base head g r hr d hd
    rw [analyze_indirect_eq] at hr
    rw [analyze_direct_eq] at hd
    split at hr
    · simp at hr
    · rcases mem_analyzeIndirectImpact hr with ⟨h1, _, _, _, _⟩
      rcases List.mem_flatten.mp hd with ⟨lst, hlst, hdl⟩
      rcases List.mem_map.mp hlst with ⟨cf, hcf, hcfl⟩
      subst hcfl
      have hdp : d.filePath = cf.path := diffTests_filePath hdl
      rw [hdp]
      exact fun hcon => h1 cf hcf hcon.symm

/-- C3 witness: the invariants instantiated at the shared environment,
whose indirect pass yields exactly one record for `b.spec.ts`. -/
theorem C3_indirect_invariants_witness :
    (∀ cf ∈ ([⟨"a.spec.ts", FileChangeType.modified⟩] : List ChangedFile),
      cf.path ≠ (⟨TestChangeType.modified, "two", "b.spec.ts", 2, TKind.test,
        ImpactType.indirect, some "helpers.ts"⟩ : TestChange).filePath) ∧
    (⟨TestChangeType.modified, "two", "b.spec.ts", 2, TKind.test,
      ImpactType.indirect, some "helpers.ts"⟩ : TestChange).type = TestChangeType.modified ∧
    (⟨TestChangeType.modified, "two", "b.spec.ts", 2, TKind.test,
      ImpactType.indirect, some "helpers.ts"⟩ : TestChange).impactType = ImpactType.indirect ∧
    (∃ f ∈ ([⟨"helpers.ts", FileChangeType.modified⟩] : List ChangedFile),
      (⟨TestChangeType.modified, "two", "b.spec.ts", 2, TKind.test,
        ImpactType.indirect, some "helpers.ts"⟩ : TestChange).impactedBy = some f.path) :=
  C3_indirect_invariants.1 envW
    [⟨"helpers.ts", FileChangeType.modified⟩] [⟨"a.spec.ts", FileChangeType.modified⟩]
    ⟨TestChangeType.modified, "two", "b.spec.ts", 2, TKind.test,
      ImpactType.indirect, some "helpers.ts"⟩ (by decide)

theorem diffTests_base_absent (hs : List TestDecl) (fp : String) :
    diffTests [] hs fp = hs.map (mkAdded fp) := by
  show hs.filterMap (headPassF [] fp) ++ List.filterMap (removedF hs fp) [] = hs.map (mkAdded fp)
  rw [List.filterMap_nil, List.append_nil]
  induction hs with
  | nil => rfl
  | cons h t ih => simpa [List.filterMap_cons, headPassF] using ih

theorem diffTests_head_absent (bs : List TestDecl) (fp : String) :
    diffTests bs [] fp = bs.map (mkRemoved fp) := by
  show List.filterMap (headPassF bs fp) [] ++ bs.filterMap (removedF [] fp) = bs.map (mkRemoved fp)
  rw [List.filterMap_nil, List.nil_append]
  induction bs with
  | nil => rfl
  | cons b t ih => simpa [List.filterMap_cons, removedF] using ih

/-- C7: content absence at a revision is never an error — extraction
over absent content yields the empty declaration list, so a file with
no base content has every head declaration reported Added and a file
with no head content has every base declaration reported Removed; and
the indirect pass skips a test file whose head content cannot be
retrieved, continuing with the remaining files, so every indirect
record stems from a file with readable head content. -/
theorem C7_absence_handling :
    (∀ fp : String, extractOpt none fp = []) ∧
    (∀ (g : GitEnv) (fp : String), showBase g fp = none →
      analyzeTestFileChanges g fp = (extractOpt (showHead g fp) fp).map (mkAdded fp)) ∧
    (∀ (g : GitEnv) (fp : String), showHead g fp = none →
      analyzeTestFileChanges g fp = (extractOpt (showBase g fp) fp).map (mkRemoved fp)) ∧
    (∀ (g : GitEnv) (paths : List String) (tf : String) (rest : List String),
      showHead g tf = none →
      indirectLoop g paths (tf :: rest) = indirectLoop g paths rest) ∧
    (∀ (g : GitEnv) (cnf ctf : List ChangedFile), ∀ r ∈ analyzeIndirectImpact g cnf ctf,
      (showHead g r.filePath).isSome) := by
  refine ⟨fun _ => rfl, ?_, ?_, ?_, ?_⟩
  · intro g fp hb
    unfold analyzeTestFileChanges
    rw [hb]
    exact diffTests_base_absent _ _
  · intro g fp hh
    unfold analyzeTestFileChanges
    rw [hh]
    exact diffTests_head_absent _ _
  · intro g paths tf rest hh
    show perFileIndirect g paths tf ++ indirectLoop g paths rest = indirectLoop g paths rest
    have : perFileIndirect g paths tf = [] := by
      unfold perFileIndirect
      rw [hh]
    rw [this, List.nil_append]
  · intro g cnf ctf r hr
    rcases mem_analyzeIndirectImpact hr with ⟨_, _, _, _, c, rp, hc, _, _⟩
    exact Option.isSome_iff_exists.mpr ⟨c, hc⟩

/-- Environment with an unreadable test file `u.spec.ts` at head (its
tree entry exists, its content read fails). -/
def envU : GitEnv :=
  ⟨"M\tx.ts", [],
   [("u.spec.ts", none),
    ("c.spec.ts", some "test(\"three\", () => \x7b\x7d)"),
    ("x.ts", some "const y = 2")]⟩

/-- C7 witness: a test file absent at base has its head declarations
reported Added, and the indirect loop of the unreadable-file
environment drops `u.spec.ts` while continuing with `c.spec.ts`. -/
theorem C7_absence_handling_witness :
    analyzeTestFileChanges envW "b.spec.ts"
      = (extractOpt (showHead envW "b.spec.ts") "b.spec.ts").map (mkAdded "b.spec.ts") ∧
    indirectLoop envU ["x.ts"] ["u.spec.ts", "c.spec.ts"]
      = indirectLoop envU ["x.ts"] ["c.spec.ts"] :=
  ⟨C7_absence_handling.2.1 envW "b.spec.ts" (by decide),
   C7_absence_handling.2.2.2.1 envU ["x.ts"] "u.spec.ts" ["c.spec.ts"] (by decide)⟩

theorem findFirstResolved_none {g : GitEnv} {tf p : String} :
    ∀ {l : List ImportRef}, (∀ imp ∈ l, resolveImportPath g imp.source tf ≠ some p) →
      findFirstResolved g [p] tf l = none := by
  intro l
  induction l with
  | nil => intro _; rfl
  | cons imp rest ih =>
    intro h
    unfold findFirstResolved
    split
    · rename_i rp hrp
      have hne := h imp (List.mem_cons_self _ _)
      have : ¬ rp ∈ [p] := by
        simp only [List.mem_singleton]
        intro hq
        subst hq
        exact hne hrp
      rw [if_neg this]
      exact ih (fun i hi => h i (List.mem_cons_of_mem _ hi))
    · exact ih (fun i hi => h i (List.mem_cons_of_mem _ hi))

theorem perFileIndirect_empty {g : GitEnv} {p tf : String}
    (h : ∀ imp ∈ extractImports ((showHead g tf).getD ""),
      resolveImportPath g imp.source tf ≠ some p) :
    perFileIndirect g [p] tf = [] := by
  unfold perFileIndirect
  split
  · rfl
  · rename_i c hc
    have hg : (showHead g tf).getD "" = c := by rw [hc]; rfl
    rw [hg] at h
    have : firstMatchingImport g [p] tf c = none := findFirstResolved_none h
    rw [this]

theorem indirectLoop_empty {g : GitEnv} {paths : List String} :
    ∀ {l : List String}, (∀ tf ∈ l, perFileIndirect g paths tf = []) →
      indirectLoop g paths l = [] := by
  intro l
  induction l with
  | nil => intro _; rfl
  | cons tf rest ih =>
    intro h
    show perFileIndirect g paths tf ++ indirectLoop g paths rest = []
    rw [h tf (List.mem_cons_self _ _), List.nil_append]
    exact ih (fun x hx => h x (List.mem_cons_of_mem _ hx))

/-- C8: the summary is a pure projection of the result lists —
`totalFilesChanged` is the number of changed files, `testFilesChanged`
the number classified as test files, the added/removed/modified
counters the corresponding counts over the direct list, and
`testsIndirectlyImpacted` the length of the indirect list; and a single
changed non-test file that no test file's imports resolve to yields
zero direct and zero indirect records while still counting as one
changed file. -/
theorem C8_summary_projection :
    (∀ (base head : String) (g : GitEnv),
      (analyze base head g).summary.totalFilesChanged
          = (analyze base head g).changedFiles.length ∧
      (analyze base head g).changedFiles.length = (getChangedFiles g.diffOutput).length ∧
      (analyze base head g).summary.testFilesChanged
          = ((analyze base head g).changedFiles.filter (fun f => f.isTestFile)).length ∧
      (analyze base head g).summary.testsAdded
          = ((analyze base head g).directlyImpactedTests.filter
              (fun t => decide (t.type = TestChangeType.added))).length ∧
      (analyze base head g).summary.testsRemoved
          = ((analyze base head g).directlyImpactedTests.filter
              (fun t => decide (t.type = TestChangeType.removed))).length ∧
      (analyze base head g).summary.testsModified
          = ((analyze base head g).directlyImpactedTests.filter
              (fun t => decide (t.type = TestChangeType.modified))).length ∧
      (analyze base head g).summary.testsIndirectlyImpacted
          = (analyze base head g).indirectlyImpactedTests.length) ∧
    (∀ (base head : String) (g : GitEnv) (p : String) (ct : FileChangeType),
      getChangedFiles g.diffOutput = [⟨p, ct⟩] →
      isPlaywrightTestFile p = false →
      (∀ tf ∈ getAllTestFiles g, ∀ imp ∈ extractImports ((showHead g tf).getD ""),
        resolveImportPath g imp.source tf ≠ some p) →
      (analyze base head g).directlyImpactedTests = [] ∧
      (analyze base head g).indirectlyImpactedTests = [] ∧
      (analyze base head g).summary.totalFilesChanged = 1 ∧
      (analyze base head g).summary.testFilesChanged = 0) := by
  constructor
  · intro base head g
    refine ⟨rfl, by simp [analyze], rfl, rfl, rfl, rfl, rfl⟩
  · intro base head g p ct hch hnt himp
    have hdir : (analyze base head g).directlyImpactedTests = [] := by
      rw [analyze_direct_eq, hch]
      simp [hnt]
    have hind : (analyze base head g).indirectlyImpactedTests = [] := by
      rw [analyze_indirect_eq, hch]
      simp only [List.filter_cons, hnt, Bool.not_false, List.filter_nil, if_pos]
      rw [if_neg (by simp)]
      unfold analyzeIndirectImpact
      refine indirectLoop_empty ?_
      intro tf htf
      have htf' : tf ∈ getAllTestFiles g := (List.mem_filter.mp htf).1
      exact perFileIndirect_empty (himp tf htf')
    refine ⟨hdir, hind, ?_, ?_⟩
    · have h1 : (analyze base head g).summary.totalFilesChanged
          = (analyze base head g).changedFiles.length := rfl
      rw [h1, analyze_changedFiles_eq, hch]
      rfl
    · have h2 : (analyze base head g).summary.testFilesChanged
          = ((analyze base head g).changedFiles.filter (fun f => f.isTestFile)).length := rfl
      rw [h2, analyze_changedFiles_eq, hch]
      simp [hnt]

/-- Scenario environment: the only change is `package.json`, a
non-test file imported by no test file. -/
def envD : GitEnv :=
  ⟨"M\tpackage.json", [],
   [("c.spec.ts", some "test(\"three\", () => \x7b\x7d)"),
    ("package.json", some "x")]⟩

/-- C8 witness: the projection equalities and the single-non-test-file
scenario instantiated at `envD`. -/
theorem C8_summary_projection_witness :
    ((analyze "b" "h" envD).summary.totalFilesChanged
        = (analyze "b" "h" envD).changedFiles.length) ∧
    ((analyze "b" "h" envD).directlyImpactedTests = [] ∧
      (analyze "b" "h" envD).indirectlyImpactedTests = [] ∧
      (analyze "b" "h" envD).summary.totalFilesChanged = 1 ∧
      (analyze "b" "h" envD).summary.testFilesChanged = 0) :=
  ⟨(C8_summary_projection.1 "b" "h" envD).1,
   C8_summary_projection.2 "b" "h" envD "package.json" FileChangeType.modified
     (by decide) (by decide) (by decide)⟩

theorem analyze_direct_origin {base head : String} {g : GitEnv} {t : TestChange}
    (ht : t ∈ (analyze base head g).directlyImpactedTests) :
    t.impactType = ImpactType.direct := by
  rw [analyze_direct_eq] at ht
  rcases List.mem_flatten.mp ht with ⟨lst, hlst, htl⟩
  rcases List.mem_map.mp hlst with ⟨cf, _, hcfl⟩
  subst hcfl
  exact diffTests_direct htl

theorem analyze_indirect_origin {base head : String} {g : GitEnv} {t : TestChange}
    (ht : t ∈ (analyze base head g).indirectlyImpactedTests) :
    t.impactType = ImpactType.indirect ∧ t.type = TestChangeType.modified := by
  rw [analyze_indirect_eq] at ht
  split at ht
  · simp at ht
  · rcases mem_analyzeIndirectImpact ht with ⟨_, h2, h3, _, _⟩
    exact ⟨h3, h2⟩

/-- C9: the added/removed/modified summary counters count only records
of Direct origin — every record of the direct list is Direct and every
record of the indirect list is an Indirect Modified record, and each
counter equals the count, over the two lists combined, of records with
the matching change type and Direct origin, while the indirect records
are counted solely by `testsIndirectlyImpacted`. -/
theorem C9_counters_direct_only (base head : String) (g : GitEnv) :
    (∀ t ∈ (analyze base head g).directlyImpactedTests,
      t.impactType = ImpactType.direct) ∧
    (∀ t ∈ (analyze base head g).indirectlyImpactedTests,
      t.impactType = ImpactType.indirect ∧ t.type = TestChangeType.modified) ∧
    (analyze base head g).summary.testsAdded
      = (((analyze base head g).directlyImpactedTests
            ++ (analyze base head g).indirectlyImpactedTests).filter
          (fun t => decide (t.type = TestChangeType.added
            ∧ t.impactType = ImpactType.direct))).length ∧
    (analyze base head g).summary.testsRemoved
      = (((analyze base head g).directlyImpactedTests
            ++ (analyze base head g).indirectlyImpactedTests).filter
          (fun t => decide (t.type = TestChangeType.removed
            ∧ t.impactType = ImpactType.direct))).length ∧
    (analyze base head g).summary.testsModified
      = (((analyze base head g).directlyImpactedTests
            ++ (analyze base head g).indirectlyImpactedTests).filter
          (fun t => decide (t.type = TestChangeType.modified
            ∧ t.impactType = ImpactType.direct))).length ∧
    (analyze base head g).summary.testsIndirectlyImpacted
      = (analyze base head g).indirectlyImpactedTests.length := by
  have hdir : ∀ t ∈ (analyze base head g).directlyImpactedTests,
      t.impactType = ImpactType.direct := fun t ht => analyze_direct_origin ht
  have hind : ∀ t ∈ (analyze base head g).indirectlyImpactedTests,
      t.impactType = ImpactType.indirect ∧ t.type = TestChangeType.modified :=
    fun t ht => analyze_indirect_origin ht
  have key : ∀ ct : TestChangeType,
      (((analyze base head g).directlyImpactedTests
          ++ (analyze base head g).indirectlyImpactedTests).filter
        (fun t => decide (t.type = ct ∧ t.impactType = ImpactType.direct))).length
      = ((analyze base head g).directlyImpactedTests.filter
          (fun t => decide (t.type = ct))).length := by
    intro ct
    rw [List.filter_append]
    have h1 : (analyze base head g).indirectlyImpactedTests.filter
        (fun t => decide (t.type = ct ∧ t.impactType = ImpactType.direct)) = [] := by
      rw [List.filter_eq_nil_iff]
      intro t ht
      simp only [decide_eq_true_eq, not_and]
      intro _
      rw [(hind t ht).1]
      simp
    have h2 : (analyze base head g).directlyImpactedTests.filter
        (fun t => decide (t.type = ct ∧ t.impactType = ImpactType.direct))
        = (analyze base head g).directlyImpactedTests.filter
          (fun t => decide (t.type = ct)) := by
      refine List.filter_congr ?_
      intro t ht
      simp [hdir t ht]
    rw [h1, h2, List.append_nil]
  exact ⟨hdir, hind, (key TestChangeType.added).symm, (key TestChangeType.removed).symm,
    (key TestChangeType.modified).symm, rfl⟩

/-- C9 witness: instantiated at the shared environment — the known
indirect record is Indirect/Modified, and `testsModified` equals the
Direct-filtered count over both lists combined. -/
theorem C9_counters_direct_only_witness :
    ((⟨TestChangeType.modified, "two", "b.spec.ts", 2, TKind.test,
        ImpactType.indirect, some "helpers.ts"⟩ : TestChange).impactType
          = ImpactType.indirect ∧
      (⟨TestChangeType.modified, "two", "b.spec.ts", 2, TKind.test,
        ImpactType.indirect, some "helpers.ts"⟩ : TestChange).type
          = TestChangeType.modified) ∧
    (analyze "b" "h" envW).summary.testsModified
      = (((analyze "b" "h" envW).directlyImpactedTests
            ++ (analyze "b" "h" envW).indirectlyImpactedTests).filter
          (fun t => decide (t.type = TestChangeType.modified
            ∧ t.impactType = ImpactType.direct))).length :=
  ⟨(C9_counters_direct_only "b" "h" envW).2.1
      ⟨TestChangeType.modified, "two", "b.spec.ts", 2, TKind.test,
        ImpactType.indirect, some "helpers.ts"⟩ (by decide),
   (C9_counters_direct_only "b" "h" envW).2.2.2.2.1⟩

/-- C10: a rename line of the diff output contributes the head-side
(new) path only; at the analysis level a renamed test file whose new
path has no base content is classified by the new path and diffed by
querying the new path at both revisions, so every head declaration of
the new path is reported Added. -/
theorem C10_rename_newpath :
    parseLine "R100\told.spec.ts\tnew.spec.ts"
      = some ⟨"new.spec.ts", FileChangeType.renamed⟩ ∧
    (∀ (base head : String) (g : GitEnv) (p : String),
      getChangedFiles g.diffOutput = [⟨p, FileChangeType.renamed⟩] →
      isPlaywrightTestFile p = true →
      showBase g p = none →
      (analyze base head g).changedFiles
        = [⟨p, FileChangeType.renamed, true,
            some ((extractOpt (showHead g p) p).map (mkAdded p))⟩] ∧
      (analyze base head g).directlyImpactedTests
        = (extractOpt (showHead g p) p).map (mkAdded p)) := by
  constructor
  · decide
  · intro base head g p hch ht hb
    have hch' : analyzeTestFileChanges g p
        = (extractOpt (showHead g p) p).map (mkAdded p) := by
      unfold analyzeTestFileChanges
      rw [hb]
      exact diffTests_base_absent _ _
    constructor
    · rw [analyze_changedFiles_eq, hch]
      simp [ht, hch']
    · rw [analyze_direct_eq, hch]
      simp [ht, hch']

/-- Rename environment: the diff reports `a.spec.ts` renamed to
`b2.spec.ts`; the new path has no base content and one test at head. -/
def envR : GitEnv :=
  ⟨"R100\ta.spec.ts\tb2.spec.ts",
   [("a.spec.ts", "test(\"one\", () => \x7b\x7d)")],
   [("b2.spec.ts", some "test(\"one\", () => \x7b\x7d)")]⟩

/-- C10 witness: the rename scenario instantiated at `envR`. -/
theorem C10_rename_newpath_witness :
    (analyze "b" "h" envR).changedFiles
      = [⟨"b2.spec.ts", FileChangeType.renamed, true,
          some ((extractOpt (showHead envR "b2.spec.ts") "b2.spec.ts").map
            (mkAdded "b2.spec.ts"))⟩] ∧
    (analyze "b" "h" envR).directlyImpactedTests
      = (extractOpt (showHead envR "b2.spec.ts") "b2.spec.ts").map (mkAdded "b2.spec.ts") :=
  C10_rename_newpath.2 "b" "h" envR "b2.spec.ts" (by decide) (by decide) (by decide)
